import Mathlib

/-!
Verification of the ShareOme FASTA-cleaning pipeline (`clean_fasta.py`).

The development shallowly embeds the batched Entrez validation loop
`validate_ids_with_entrez` (free-reduction retries, a bounded retry budget,
per-identifier fallback), the header-accession extractor
`extract_accession_from_header`, the header scanner
`collect_accessions_from_fasta` and the rewriter `write_cleaned_fasta`.

Remote calls are modelled by an oracle `Nat → Res` giving the outcome of the
n-th outbound call of a run; besides the invalid-id set the source returns,
the embedding produces the trace of remote calls and sleeps, so that claims
about call counts and rate limiting can be stated.
-/

namespace ShareOme

/-! ### Character-level helpers mirroring Python string primitives -/

/-- Python whitespace (`\s`, `str.strip`, `str.split`), ASCII range. -/
def isPySpace (c : Char) : Bool :=
  c == ' ' || c == '\t' || c == '\n' || c == '\r' || c == '\x0b' || c == '\x0c'

/-- The regex class `[A-Z]`. -/
def isUpperAZ (c : Char) : Bool :=
  decide ('A' ≤ c) && decide (c ≤ 'Z')

/-- The regex class `\d`. -/
def isDigit09 (c : Char) : Bool :=
  decide ('0' ≤ c) && decide (c ≤ '9')

/-- Python `line.rstrip("\n")`: remove trailing newline characters only. -/
def rstripNl (cs : List Char) : List Char :=
  (cs.reverse.dropWhile (fun c => c == '\n')).reverse

/-- Python `s.strip().split()[0]`: the first maximal run of non-whitespace
characters, or `none` (an `IndexError` in the source) when there is none. -/
def firstPyToken (cs : List Char) : Option (List Char) :=
  let tok := (cs.dropWhile isPySpace).takeWhile (fun c => !isPySpace c)
  if tok.isEmpty then none else some tok

/-! ### The accession regex `([A-Z]{1,3}_\d+(?:\.\d+)?)` of the source -/

/-- Anchored attempt with a fixed letter count `k`: `[A-Z]^k` then `_`, then
greedy `\d+`, then a greedy optional `\.\d+`, exactly as Python `re` matches
the pattern at one position once the letter count is chosen. -/
def matchAccWith (k : Nat) (cs : List Char) : Option (List Char) :=
  let letters := cs.take k
  if decide (letters.length = k) && letters.all isUpperAZ then
    match cs.drop k with
    | '_' :: rest =>
      let ds := rest.takeWhile isDigit09
      if ds.isEmpty then none
      else
        match rest.drop ds.length with
        | '.' :: rest2 =>
          let ds2 := rest2.takeWhile isDigit09
          if ds2.isEmpty then some (letters ++ '_' :: ds)
          else some (letters ++ '_' :: ds ++ '.' :: ds2)
        | _ => some (letters ++ '_' :: ds)
    | _ => none
  else none

/-- Anchored attempt at one position: the greedy, backtracking letter count
of `[A-Z]{1,3}` tries 3 letters, then 2, then 1. -/
def matchAccAt (cs : List Char) : Option (List Char) :=
  match matchAccWith 3 cs with
  | some m => some m
  | none =>
    match matchAccWith 2 cs with
    | some m => some m
    | none => matchAccWith 1 cs

/-- Python `re.search` for the accession pattern: the leftmost position with
a successful anchored match wins. -/
def searchAcc : List Char → Option (List Char)
  | [] => none
  | c :: rest =>
    match matchAccAt (c :: rest) with
    | some m => some m
    | none => searchAcc rest

/-- Embedding of `extract_accession_from_header` (clean_fasta.py 76-95).
`none` models the `IndexError` raised by `line[1:].strip().split()[0]` when
the regex finds nothing and the header carries no whitespace-delimited
token after the marker. -/
def extract_accession_from_header (line : String) : Option String :=
  let l := rstripNl line.toList
  if l.head? = some '>' then
    match searchAcc l with
    | some m => some (String.mk m)
    | none => (firstPyToken (l.drop 1)).map String.mk
  else some ""

/-! ### The failure-message regex `Invalid uid\s+(\S+)` of the source -/

/-- The literal part of the failure-message pattern. -/
def invalidUidLit : List Char := "Invalid uid".toList

/-- After the literal, match `\s+(\S+)` and return the captured group. -/
def matchUidAfter (cs : List Char) : Option (List Char) :=
  match cs with
  | [] => none
  | c :: rest =>
    if isPySpace c then
      let tok := (rest.dropWhile isPySpace).takeWhile (fun d => !isPySpace d)
      if tok.isEmpty then none else some tok
    else none

/-- Python `re.search(r"Invalid uid\s+(\S+)", msg)`: leftmost occurrence of
the literal followed by whitespace and a non-whitespace token. -/
def searchInvalidUid : List Char → Option (List Char)
  | [] => none
  | c :: rest =>
    if invalidUidLit.isPrefixOf (c :: rest) then
      match matchUidAfter ((c :: rest).drop invalidUidLit.length) with
      | some tok => some tok
      | none => searchInvalidUid rest
    else searchInvalidUid rest

/-- The offending identifier named by a failure message, when the source's
`re.search(r"Invalid uid\s+(\S+)", msg)` finds one. -/
def extractInvalidUid (msg : String) : Option String :=
  (searchInvalidUid msg.toList).map String.mk

/-! ### The remote-call model -/

/-- Outcome of one remote ESummary call: success, or a raised exception
carrying its message string. -/
inductive Res where
  | ok : Res
  | err : String → Res
deriving DecidableEq

/-- Whether an outcome is a raised exception. -/
def Res.isErr : Res → Bool
  | .ok => false
  | .err _ => true

/-- Observable events of a validation run, in order: whole-batch remote
calls, per-identifier remote calls, and sleeps (seconds). -/
inductive Event where
  | batchCall : List String → Res → Event
  | singleCall : String → Res → Event
  | sleep : ℚ → Event
deriving DecidableEq

/-! ### Embedding of `validate_ids_with_entrez` (clean_fasta.py 115-210) -/

/-- Embedding of `chunker`: the successive slices `seq[i:i+n]`. For `n = 0`
the Python generator raises `ValueError`; every caller passes a positive
`batch_size`, and the embedding returns `[]` there. -/
def chunker (seq : List String) (n : Nat) : List (List String) :=
  if h : n = 0 then []
  else
    match seq with
    | [] => []
    | c :: rest => ((c :: rest).take n) :: chunker ((c :: rest).drop n) n
termination_by seq.length
decreasing_by
  simp only [List.length_drop, List.length_cons]
  omega

/-- Embedding of the per-identifier fallback loop (clean_fasta.py 193-203):
one individual ESummary call per identifier left in the batch; a call that
raises marks its identifier invalid (and the `time.sleep` inside the `try`
body is skipped), a call that succeeds sleeps `delay`. `n` is the index of
the next remote call; the result is the invalid set, the next call index,
and the events this loop produces. -/
def fallback (oracle : Nat → Res) (delay : ℚ) (batch : List String)
    (n : Nat) (invalid : Finset String) : Finset String × Nat × List Event :=
  match batch with
  | [] => (invalid, n, [])
  | acc :: rest =>
    match oracle n with
    | .ok =>
      let r := fallback oracle delay rest (n + 1) invalid
      (r.1, r.2.1, .singleCall acc .ok :: .sleep delay :: r.2.2)
    | .err m =>
      let r := fallback oracle delay rest (n + 1) (insert acc invalid)
      (r.1, r.2.1, .singleCall acc (.err m) :: r.2.2)

/-- The single-identifier classification of a batch failure (clean_fasta.py
174-177): it fires exactly when the message regex names an offending uid
and that uid is currently a member of the batch. -/
def freeReduce (batch : List String) (msg : String) : Option String :=
  match extractInvalidUid msg with
  | some bad => if bad ∈ batch then some bad else none
  | none => none

lemma freeReduce_mem {batch : List String} {msg bad : String}
    (h : freeReduce batch msg = some bad) : bad ∈ batch := by
  unfold freeReduce at h
  cases hx : extractInvalidUid msg with
  | none => rw [hx] at h; cases h
  | some b =>
    rw [hx] at h
    by_cases hb : b ∈ batch
    · simp only [hb, if_pos] at h
      cases h
      exact hb
    · simp [hb] at h

lemma length_filter_ne_lt {x : String} :
    ∀ {l : List String}, x ∈ l → (l.filter (fun y => y ≠ x)).length < l.length := by
  intro l hx
  induction l with
  | nil => cases hx
  | cons a t ih =>
    simp only [List.filter_cons]
    by_cases hax : a = x
    · subst hax
      rw [if_neg (by simp)]
      have hle := List.length_filter_le (fun y => decide (y ≠ a)) t
      simp only [List.length_cons]
      omega
    · have hxt : x ∈ t := by
        rcases List.mem_cons.mp hx with h | h
        · exact absurd h.symm hax
        · exact h
      rw [if_pos (by simp [hax])]
      have := ih hxt
      simp only [List.length_cons]
      omega

/-- Embedding of the inner `while True` loop of `validate_ids_with_entrez`
(clean_fasta.py 159-207) on one batch. On success every remaining member is
implicitly accepted. On failure: if the message names an offending uid that
is in the batch, that uid is marked invalid and the shrunken batch retried
immediately, `attempt` untouched; otherwise `attempt` is incremented, with
a `3 * attempt` second sleep before the next try, and once `attempt`
exceeds `retries` the per-identifier fallback runs. The result is the
invalid set, the next call index, and the event trace. -/
def runBatch (oracle : Nat → Res) (delay : ℚ) (retries : Nat)
    (batch : List String) (attempt : Nat) (n : Nat) (invalid : Finset String) :
    Finset String × Nat × List Event :=
  match oracle n with
  | .ok => (invalid, n + 1, [.batchCall batch .ok, .sleep delay])
  | .err msg =>
    match hf : freeReduce batch msg with
    | some bad =>
      if batch.filter (fun x => x ≠ bad) = [] then
        (insert bad invalid, n + 1, [.batchCall batch (.err msg)])
      else
        let r := runBatch oracle delay retries (batch.filter (fun x => x ≠ bad))
          attempt (n + 1) (insert bad invalid)
        (r.1, r.2.1, .batchCall batch (.err msg) :: r.2.2)
    | none =>
      if retries < attempt + 1 then
        let r := fallback oracle delay batch (n + 1) invalid
        (r.1, r.2.1, .batchCall batch (.err msg) :: r.2.2)
      else
        let r := runBatch oracle delay retries batch (attempt + 1) (n + 1) invalid
        (r.1, r.2.1,
          .batchCall batch (.err msg) :: .sleep ((3 * (attempt + 1) : ℕ) : ℚ) :: r.2.2)
termination_by batch.length + (retries + 1 - attempt)
decreasing_by
  · have hmem : bad ∈ batch := freeReduce_mem hf
    have hlt := length_filter_ne_lt hmem
    omega
  · omega

/-- Embedding of the outer `for original_batch in chunker(...)` loop of
`validate_ids_with_entrez`: batches are processed strictly sequentially,
empty slices skipped. -/
def runBatches (oracle : Nat → Res) (delay : ℚ) (retries : Nat) :
    List (List String) → Nat → Finset String → Finset String × Nat × List Event
  | [], n, invalid => (invalid, n, [])
  | b :: rest, n, invalid =>
    if b = [] then runBatches oracle delay retries rest n invalid
    else
      let r := runBatch oracle delay retries b 0 n invalid
      let r2 := runBatches oracle delay retries rest r.2.1 r.1
      (r2.1, r2.2.1, r.2.2 ++ r2.2.2)

/-- Embedding of `validate_ids_with_entrez` (clean_fasta.py 115-210): the
invalid-id set the source returns, paired with the run's event trace (the
remote calls and sleeps, in order). Setting `Entrez.email`, the delay
default derived from the API key, and logging are observational and not
modelled. -/
def validate_ids_with_entrez (oracle : Nat → Res) (ids : List String)
    (delay : ℚ) (retries : Nat) (batch_size : Nat) : Finset String × List Event :=
  let r := runBatches oracle delay retries (chunker ids batch_size) 0 ∅
  (r.1, r.2.2)

/-! ### Embedding of the FASTA scanner and rewriter -/

/-- Python `line.startswith(">")`: the first character of the line is the
header marker. (`String.startsWith` itself does not reduce in the kernel,
so the check is embedded at the character level, like the rest of the
string handling.) -/
def startsWithGt (line : String) : Bool :=
  line.toList.head? = some '>'

/-- Embedding of `collect_accessions_from_fasta` (clean_fasta.py 214-229):
the set of truthy accessions extracted from header lines. The source
returns this set sorted; no claim depends on the ordering, so the set is
returned. `none` models the scan crashing on an `IndexError` from the
extractor. -/
def collect_accessions_from_fasta : List String → Option (Finset String)
  | [] => some ∅
  | line :: rest =>
    if startsWithGt line then
      match extract_accession_from_header line with
      | none => none
      | some acc =>
        (collect_accessions_from_fasta rest).map
          (fun s => if acc = "" then s else insert acc s)
    else collect_accessions_from_fasta rest

/-- The loop of `write_cleaned_fasta` (clean_fasta.py 245-260): `wc` is the
`write_current` flag. `none` models the run crashing on an `IndexError`
from the extractor. -/
def writeLoop (bad : Finset String) : List String → Bool → Option (List String)
  | [], _ => some []
  | line :: rest, wc =>
    if startsWithGt line then
      match extract_accession_from_header line with
      | none => none
      | some acc =>
        if acc ∈ bad then writeLoop bad rest false
        else (writeLoop bad rest true).map (fun out => line :: out)
    else
      if wc then (writeLoop bad rest wc).map (fun out => line :: out)
      else writeLoop bad rest wc

/-- Embedding of `write_cleaned_fasta` (clean_fasta.py 231-260): the input
file as its list of lines (trailing newlines included), the output as the
list of lines written, byte for byte. -/
def write_cleaned_fasta (lines : List String) (bad_ids : Finset String) :
    Option (List String) :=
  writeLoop bad_ids lines true

/-! ### Trace observations -/

/-- Number of whole-batch remote calls recorded in a trace. -/
def countBatchCalls : List Event → Nat
  | [] => 0
  | .batchCall _ _ :: tr => countBatchCalls tr + 1
  | _ :: tr => countBatchCalls tr

/-- The identifiers of the per-identifier remote calls in a trace, in
order. -/
def singleCallIds : List Event → List String
  | [] => []
  | .singleCall a _ :: tr => a :: singleCallIds tr
  | _ :: tr => singleCallIds tr

/-- Every remote call in the trace is immediately followed by a sleep of
the configured delay. -/
def callFollowedByDelay (d : ℚ) : List Event → Bool
  | [] => true
  | .batchCall _ _ :: tr =>
    decide (tr.head? = some (.sleep d)) && callFollowedByDelay d tr
  | .singleCall _ _ :: tr =>
    decide (tr.head? = some (.sleep d)) && callFollowedByDelay d tr
  | .sleep _ :: tr => callFollowedByDelay d tr

/-- Every successful remote call is immediately followed by a sleep of the
configured delay. -/
def okCallFollowedByDelay (d : ℚ) : List Event → Bool
  | [] => true
  | .batchCall _ .ok :: tr =>
    decide (tr.head? = some (.sleep d)) && okCallFollowedByDelay d tr
  | .singleCall _ .ok :: tr =>
    decide (tr.head? = some (.sleep d)) && okCallFollowedByDelay d tr
  | _ :: tr => okCallFollowedByDelay d tr

/-- The trace does not end in a successful call, so that appending further
events cannot break `okCallFollowedByDelay`. -/
def lastNotOkCall : List Event → Bool
  | [] => true
  | [.batchCall _ .ok] => false
  | [.singleCall _ .ok] => false
  | [_] => true
  | _ :: tr => lastNotOkCall tr

/-- Whether an event is a successful remote call. -/
def isOkCall : Event → Bool
  | .batchCall _ .ok => true
  | .singleCall _ .ok => true
  | _ => false

/-- Specification-side description of the per-identifier fallback outcome:
the identifiers of `batch` whose individual calls, issued consecutively
from call index `n`, raise. Used to state fallback correctness against
the embedded loop. -/
def failedIdsFrom (oracle : Nat → Res) : List String → Nat → List String
  | [], _ => []
  | a :: rest, n =>
    if (oracle n).isErr then a :: failedIdsFrom oracle rest (n + 1)
    else failedIdsFrom oracle rest (n + 1)

/-! ### Step equations for the batch loop -/

lemma runBatch_ok {oracle : Nat → Res} {n : Nat} (h : oracle n = .ok)
    (delay : ℚ) (retries : Nat) (batch : List String) (attempt : Nat)
    (invalid : Finset String) :
    runBatch oracle delay retries batch attempt n invalid
      = (invalid, n + 1, [.batchCall batch .ok, .sleep delay]) := by
  rw [runBatch.eq_def, h]

lemma runBatch_shrink_empty {oracle : Nat → Res} {n : Nat} {msg bad : String}
    {batch : List String}
    (h : oracle n = .err msg) (hf : freeReduce batch msg = some bad)
    (hb : batch.filter (fun x => x ≠ bad) = [])
    (delay : ℚ) (retries : Nat) (attempt : Nat) (invalid : Finset String) :
    runBatch oracle delay retries batch attempt n invalid
      = (insert bad invalid, n + 1, [.batchCall batch (.err msg)]) := by
  rw [runBatch.eq_def, h]
  split
  · rename_i heq
    exact Res.noConfusion heq
  · rename_i a heq
    injection heq with hm
    subst hm
    split
    · rename_i bad' heq2
      rw [hf] at heq2
      injection heq2 with hb2
      subst hb2
      rw [if_pos hb]
    · rename_i heq2
      rw [hf] at heq2
      cases heq2

lemma runBatch_shrink {oracle : Nat → Res} {n : Nat} {msg bad : String}
    {batch : List String}
    (h : oracle n = .err msg) (hf : freeReduce batch msg = some bad)
    (hb : ¬ batch.filter (fun x => x ≠ bad) = [])
    (delay : ℚ) (retries : Nat) (attempt : Nat) (invalid : Finset String) :
    runBatch oracle delay retries batch attempt n invalid
      = (let r := runBatch oracle delay retries (batch.filter (fun x => x ≠ bad))
          attempt (n + 1) (insert bad invalid)
         (r.1, r.2.1, .batchCall batch (.err msg) :: r.2.2)) := by
  rw [runBatch.eq_def, h]
  split
  · rename_i heq
    exact Res.noConfusion heq
  · rename_i a heq
    injection heq with hm
    subst hm
    split
    · rename_i bad' heq2
      rw [hf] at heq2
      injection heq2 with hb2
      subst hb2
      rw [if_neg hb]
    · rename_i heq2
      rw [hf] at heq2
      cases heq2

lemma runBatch_amb_fall {oracle : Nat → Res} {n : Nat} {msg : String}
    {batch : List String} {retries attempt : Nat}
    (h : oracle n = .err msg) (hf : freeReduce batch msg = none)
    (hgt : retries < attempt + 1)
    (delay : ℚ) (invalid : Finset String) :
    runBatch oracle delay retries batch attempt n invalid
      = (let r := fallback oracle delay batch (n + 1) invalid
         (r.1, r.2.1, .batchCall batch (.err msg) :: r.2.2)) := by
  rw [runBatch.eq_def, h]
  split
  · rename_i heq
    exact Res.noConfusion heq
  · rename_i a heq
    injection heq with hm
    subst hm
    split
    · rename_i bad' heq2
      rw [hf] at heq2
      cases heq2
    · rw [if_pos hgt]

lemma runBatch_amb_retry {oracle : Nat → Res} {n : Nat} {msg : String}
    {batch : List String} {retries attempt : Nat}
    (h : oracle n = .err msg) (hf : freeReduce batch msg = none)
    (hle : ¬ retries < attempt + 1)
    (delay : ℚ) (invalid : Finset String) :
    runBatch oracle delay retries batch attempt n invalid
      = (let r := runBatch oracle delay retries batch (attempt + 1) (n + 1) invalid
         (r.1, r.2.1,
          .batchCall batch (.err msg) :: .sleep ((3 * (attempt + 1) : ℕ) : ℚ) :: r.2.2)) := by
  rw [runBatch.eq_def, h]
  split
  · rename_i heq
    exact Res.noConfusion heq
  · rename_i a heq
    injection heq with hm
    subst hm
    split
    · rename_i bad' heq2
      rw [hf] at heq2
      cases heq2
    · rw [if_neg hle]

/-! ### Trace bookkeeping lemmas -/

lemma countBatchCalls_append (t1 t2 : List Event) :
    countBatchCalls (t1 ++ t2) = countBatchCalls t1 + countBatchCalls t2 := by
  induction t1 with
  | nil => simp [countBatchCalls]
  | cons e tr ih => cases e <;> simp [countBatchCalls, ih] <;> omega

lemma singleCallIds_append (t1 t2 : List Event) :
    singleCallIds (t1 ++ t2) = singleCallIds t1 ++ singleCallIds t2 := by
  induction t1 with
  | nil => simp [singleCallIds]
  | cons e tr ih => cases e <;> simp [singleCallIds, ih]

lemma fallback_invalid (oracle : Nat → Res) (delay : ℚ) :
    ∀ (batch : List String) (n : Nat) (invalid : Finset String),
      (fallback oracle delay batch n invalid).1
        = invalid ∪ (failedIdsFrom oracle batch n).toFinset := by
  intro batch
  induction batch with
  | nil => intro n invalid; simp [fallback, failedIdsFrom]
  | cons a rest ih =>
    intro n invalid
    cases ho : oracle n with
    | ok =>
      simp [fallback, ho, failedIdsFrom, Res.isErr, ih]
    | err m =>
      simp only [fallback, ho, ih, failedIdsFrom, Res.isErr, if_true, List.toFinset_cons]
      ext y
      simp only [Finset.mem_union, Finset.mem_insert, List.mem_toFinset]
      tauto

lemma fallback_next (oracle : Nat → Res) (delay : ℚ) :
    ∀ (batch : List String) (n : Nat) (invalid : Finset String),
      (fallback oracle delay batch n invalid).2.1 = n + batch.length := by
  intro batch
  induction batch with
  | nil => intro n invalid; simp [fallback]
  | cons a rest ih =>
    intro n invalid
    cases ho : oracle n <;> simp [fallback, ho, ih] <;> omega

lemma fallback_singleIds (oracle : Nat → Res) (delay : ℚ) :
    ∀ (batch : List String) (n : Nat) (invalid : Finset String),
      singleCallIds (fallback oracle delay batch n invalid).2.2 = batch := by
  intro batch
  induction batch with
  | nil => intro n invalid; simp [fallback, singleCallIds]
  | cons a rest ih =>
    intro n invalid
    cases ho : oracle n <;> simp [fallback, ho, singleCallIds, ih]

lemma fallback_noBatchCalls (oracle : Nat → Res) (delay : ℚ) :
    ∀ (batch : List String) (n : Nat) (invalid : Finset String),
      countBatchCalls (fallback oracle delay batch n invalid).2.2 = 0 := by
  intro batch
  induction batch with
  | nil => intro n invalid; simp [fallback, countBatchCalls]
  | cons a rest ih =>
    intro n invalid
    cases ho : oracle n <;> simp [fallback, ho, countBatchCalls, ih]

lemma failedIdsFrom_subset (oracle : Nat → Res) :
    ∀ (batch : List String) (n : Nat) (x : String),
      x ∈ failedIdsFrom oracle batch n → x ∈ batch := by
  intro batch
  induction batch with
  | nil => intro n x hx; simp [failedIdsFrom] at hx
  | cons a rest ih =>
    intro n x hx
    by_cases he : (oracle n).isErr = true
    · simp only [failedIdsFrom, he, if_pos] at hx
      rcases List.mem_cons.mp hx with h | h
      · exact h ▸ List.mem_cons_self a rest
      · exact List.mem_cons_of_mem a (ih (n + 1) x h)
    · simp only [failedIdsFrom, he, if_neg, if_false] at hx
      exact List.mem_cons_of_mem a (ih (n + 1) x hx)

lemma runBatch_invalid_subset (oracle : Nat → Res) (delay : ℚ) (retries : Nat) :
    ∀ (batch : List String) (attempt n : Nat) (invalid : Finset String),
      (runBatch oracle delay retries batch attempt n invalid).1
        ⊆ invalid ∪ batch.toFinset := by
  intro batch attempt n invalid
  induction batch, attempt, n, invalid using runBatch.induct oracle delay retries with
  | case1 batch attempt n invalid ho =>
    rw [runBatch_ok ho]
    exact Finset.subset_union_left
  | case2 batch attempt n invalid msg ho bad hf hb =>
    rw [runBatch_shrink_empty ho hf hb]
    intro y hy
    rcases Finset.mem_insert.mp hy with h | h
    · subst h
      exact Finset.mem_union_right _ (List.mem_toFinset.mpr (freeReduce_mem hf))
    · exact Finset.mem_union_left _ h
  | case3 batch attempt n invalid msg ho bad hf hb ih =>
    rw [runBatch_shrink ho hf hb]
    intro y hy
    have := ih hy
    rcases Finset.mem_union.mp this with h | h
    · rcases Finset.mem_insert.mp h with h' | h'
      · subst h'
        exact Finset.mem_union_right _ (List.mem_toFinset.mpr (freeReduce_mem hf))
      · exact Finset.mem_union_left _ h'
    · have hmem := List.mem_toFinset.mp h
      exact Finset.mem_union_right _
        (List.mem_toFinset.mpr (List.mem_of_mem_filter hmem))
  | case4 batch attempt n invalid msg ho hf hgt =>
    rw [runBatch_amb_fall ho hf hgt]
    intro y hy
    simp only at hy
    rw [fallback_invalid] at hy
    rcases Finset.mem_union.mp hy with h | h
    · exact Finset.mem_union_left _ h
    · exact Finset.mem_union_right _
        (List.mem_toFinset.mpr (failedIdsFrom_subset oracle _ _ _ (List.mem_toFinset.mp h)))
  | case5 batch attempt n invalid msg ho hf hle ih =>
    rw [runBatch_amb_retry ho hf hle]
    intro y hy
    exact ih hy

lemma runBatches_invalid_subset (oracle : Nat → Res) (delay : ℚ) (retries : Nat) :
    ∀ (bs : List (List String)) (n : Nat) (invalid : Finset String),
      (runBatches oracle delay retries bs n invalid).1 ⊆ invalid ∪ bs.flatten.toFinset := by
  intro bs
  induction bs with
  | nil => intro n invalid; simp [runBatches]
  | cons b rest ih =>
    intro n invalid
    by_cases hb : b = []
    · subst hb
      intro y hy
      simp only [runBatches, if_pos] at hy
      have := ih _ _ hy
      rcases Finset.mem_union.mp this with h | h
      · exact Finset.mem_union_left _ h
      · apply Finset.mem_union_right
        rw [List.mem_toFinset] at h ⊢
        simpa using h
    · intro y hy
      simp only [runBatches, if_neg hb] at hy
      have h2 := ih _ _ hy
      rcases Finset.mem_union.mp h2 with h | h
      · have h3 := runBatch_invalid_subset oracle delay retries b 0 n invalid h
        rcases Finset.mem_union.mp h3 with h4 | h4
        · exact Finset.mem_union_left _ h4
        · apply Finset.mem_union_right
          rw [List.mem_toFinset] at h4 ⊢
          rw [List.flatten_cons, List.mem_append]
          exact Or.inl h4
      · apply Finset.mem_union_right
        rw [List.mem_toFinset] at h ⊢
        rw [List.flatten_cons, List.mem_append]
        exact Or.inr h

lemma chunker_flatten :
    ∀ (seq : List String) (n : Nat), n ≠ 0 → (chunker seq n).flatten = seq := by
  intro seq n
  induction seq, n using chunker.induct with
  | case1 seq => intro h; exact absurd rfl h
  | case2 n hn =>
    intro _
    rw [chunker.eq_def]
    simp [hn]
  | case3 n hn c rest ih =>
    intro _
    rw [chunker.eq_def, dif_neg hn]
    rw [List.flatten_cons]
    rw [ih hn]
    exact List.take_append_drop n (c :: rest)

/-- C1: for every input identifier list and every sequence of remote-call
outcomes, the Rejected set returned by `validate_ids_with_entrez` is a
subset of the input identifiers; with Accepted defined as the deduplicated
input set minus the returned set, Accepted and Rejected are disjoint and
their union is the full deduplicated input identifier set. -/
theorem c1_partition_completeness (oracle : Nat → Res) (ids : List String)
    (delay : ℚ) (retries batch_size : Nat) (hbs : 0 < batch_size) :
    (validate_ids_with_entrez oracle ids delay retries batch_size).1 ⊆ ids.toFinset ∧
    Disjoint
      (ids.toFinset \ (validate_ids_with_entrez oracle ids delay retries batch_size).1)
      (validate_ids_with_entrez oracle ids delay retries batch_size).1 ∧
    (ids.toFinset \ (validate_ids_with_entrez oracle ids delay retries batch_size).1)
      ∪ (validate_ids_with_entrez oracle ids delay retries batch_size).1
      = ids.toFinset := by
  have hsub : (validate_ids_with_entrez oracle ids delay retries batch_size).1
      ⊆ ids.toFinset := by
    intro y hy
    simp only [validate_ids_with_entrez] at hy
    have h := runBatches_invalid_subset oracle delay retries
      (chunker ids batch_size) 0 ∅ hy
    rcases Finset.mem_union.mp h with h' | h'
    · simp at h'
    · rw [chunker_flatten ids batch_size (by omega)] at h'
      exact h'
  exact ⟨hsub, Finset.sdiff_disjoint, Finset.sdiff_union_of_subset hsub⟩

/-- Witness for C1 at a concrete input. -/
theorem c1_partition_completeness_witness :
    0 < 1 ∧
    ((validate_ids_with_entrez (fun _ => Res.ok) ["A", "B"] 1 3 1).1
        ⊆ (["A", "B"] : List String).toFinset ∧
    Disjoint
      ((["A", "B"] : List String).toFinset
        \ (validate_ids_with_entrez (fun _ => Res.ok) ["A", "B"] 1 3 1).1)
      (validate_ids_with_entrez (fun _ => Res.ok) ["A", "B"] 1 3 1).1 ∧
    ((["A", "B"] : List String).toFinset
        \ (validate_ids_with_entrez (fun _ => Res.ok) ["A", "B"] 1 3 1).1)
      ∪ (validate_ids_with_entrez (fun _ => Res.ok) ["A", "B"] 1 3 1).1
      = (["A", "B"] : List String).toFinset) :=
  ⟨by decide, c1_partition_completeness (fun _ => Res.ok) ["A", "B"] 1 3 1 (by decide)⟩

/-! ### All-ambiguous runs: bounded retries and fallback -/

lemma runBatch_allAmbiguous (oracle : Nat → Res) (delay : ℚ) (retries : Nat)
    (batch : List String) (invalid : Finset String) :
    ∀ (k attempt n : Nat), retries - attempt = k → attempt ≤ retries →
    (∀ m, n ≤ m → m ≤ n + k → ∃ msg, oracle m = .err msg ∧ extractInvalidUid msg = none) →
    ∃ tpre,
      runBatch oracle delay retries batch attempt n invalid
        = ((fallback oracle delay batch (n + k + 1) invalid).1,
           (fallback oracle delay batch (n + k + 1) invalid).2.1,
           tpre ++ (fallback oracle delay batch (n + k + 1) invalid).2.2) ∧
      countBatchCalls tpre = k + 1 ∧
      singleCallIds tpre = [] := by
  intro k
  induction k with
  | zero =>
    intro attempt n hk hle H
    obtain ⟨msg, ho, hex⟩ := H n le_rfl (by omega)
    have hfr : freeReduce batch msg = none := by
      unfold freeReduce
      rw [hex]
    have hgt : retries < attempt + 1 := by omega
    refine ⟨[.batchCall batch (.err msg)], ?_, by simp [countBatchCalls],
      by simp [singleCallIds]⟩
    rw [runBatch_amb_fall ho hfr hgt]
    simp only [List.cons_append, List.nil_append]
  | succ k ih =>
    intro attempt n hk hle H
    obtain ⟨msg, ho, hex⟩ := H n le_rfl (by omega)
    have hfr : freeReduce batch msg = none := by
      unfold freeReduce
      rw [hex]
    have hlt : ¬ retries < attempt + 1 := by omega
    obtain ⟨tpre, heq, hcount, hsingle⟩ := ih (attempt + 1) (n + 1) (by omega) (by omega)
      (fun m hm1 hm2 => H m (by omega) (by omega))
    refine ⟨.batchCall batch (.err msg) :: .sleep ((3 * (attempt + 1) : ℕ) : ℚ) :: tpre,
      ?_, by simp [countBatchCalls, hcount], by simp [singleCallIds, hsingle]⟩
    rw [runBatch_amb_retry ho hfr hlt]
    simp only []
    rw [heq]
    rw [(by omega : n + 1 + k + 1 = n + (k + 1) + 1)]
    simp [List.cons_append]

/-- C3: for a batch whose whole-batch remote calls all fail with an
ambiguous (unclassified) error, the batch loop issues exactly
`retries + 1` whole-batch remote calls before entering per-identifier
fallback, never more. -/
theorem c3_bounded_retries (oracle : Nat → Res) (delay : ℚ) (retries : Nat)
    (batch : List String) (n : Nat) (invalid : Finset String)
    (H : ∀ m, n ≤ m → m ≤ n + retries →
      ∃ msg, oracle m = .err msg ∧ extractInvalidUid msg = none) :
    countBatchCalls (runBatch oracle delay retries batch 0 n invalid).2.2
      = retries + 1 := by
  obtain ⟨tpre, heq, hcount, hsingle⟩ :=
    runBatch_allAmbiguous oracle delay retries batch invalid retries 0 n (by omega) (by omega) H
  rw [heq]
  simp only []
  rw [countBatchCalls_append, hcount, fallback_noBatchCalls]

/-- Witness for C3 at a concrete oracle that always fails ambiguously. -/
theorem c3_bounded_retries_witness :
    (∀ m, 0 ≤ m → m ≤ 0 + 1 →
      ∃ msg, (fun _ => Res.err "boom") m = Res.err msg ∧ extractInvalidUid msg = none) ∧
    countBatchCalls (runBatch (fun _ => Res.err "boom") 1 1 ["A"] 0 0 ∅).2.2 = 1 + 1 :=
  ⟨fun _ _ _ => ⟨"boom", rfl, by decide⟩,
   c3_bounded_retries (fun _ => Res.err "boom") 1 1 ["A"] 0 ∅
     (fun _ _ _ => ⟨"boom", rfl, by decide⟩)⟩

/-- C4: for a batch whose whole-batch calls all fail ambiguously (the batch
therefore enters per-identifier fallback), every identifier still in the
batch receives exactly one individual remote call, in batch order, and the
invalid set afterwards is the entry set plus exactly the identifiers whose
individual call raised; no identifier is left without an outcome. -/
theorem c4_fallback_correctness (oracle : Nat → Res) (delay : ℚ) (retries : Nat)
    (batch : List String) (n : Nat) (invalid : Finset String)
    (H : ∀ m, n ≤ m → m ≤ n + retries →
      ∃ msg, oracle m = .err msg ∧ extractInvalidUid msg = none) :
    singleCallIds (runBatch oracle delay retries batch 0 n invalid).2.2 = batch ∧
    (runBatch oracle delay retries batch 0 n invalid).1
      = invalid ∪ (failedIdsFrom oracle batch (n + retries + 1)).toFinset := by
  obtain ⟨tpre, heq, hcount, hsingle⟩ :=
    runBatch_allAmbiguous oracle delay retries batch invalid retries 0 n (by omega) (by omega) H
  constructor
  · rw [heq]
    simp only []
    rw [singleCallIds_append, hsingle, fallback_singleIds]
    simp
  · rw [heq]
    simp only []
    rw [fallback_invalid]

/-- Witness for C4: one ambiguous batch failure with zero retry budget, then
the fallback call on `A` (call index 1) succeeds and the one on `B` (call
index 2) fails. -/
theorem c4_fallback_correctness_witness :
    (∀ m, 0 ≤ m → m ≤ 0 + 0 →
      ∃ msg, (fun k => if k = 1 then Res.ok else Res.err "amb") m = Res.err msg ∧
        extractInvalidUid msg = none) ∧
    (singleCallIds
        (runBatch (fun k => if k = 1 then Res.ok else Res.err "amb")
          1 0 ["A", "B"] 0 0 ∅).2.2
      = ["A", "B"] ∧
     (runBatch (fun k => if k = 1 then Res.ok else Res.err "amb")
          1 0 ["A", "B"] 0 0 ∅).1
      = ∅ ∪ (failedIdsFrom (fun k => if k = 1 then Res.ok else Res.err "amb")
            ["A", "B"] (0 + 0 + 1)).toFinset) :=
  ⟨fun m _ hm => by
      have hm0 : m = 0 := by omega
      subst hm0
      exact ⟨"amb", rfl, by decide⟩,
   c4_fallback_correctness (fun k => if k = 1 then Res.ok else Res.err "amb")
     1 0 ["A", "B"] 0 ∅
     (fun m _ hm => by
        have hm0 : m = 0 := by omega
        subst hm0
        exact ⟨"amb", rfl, by decide⟩)⟩

/-- C5: exhausting a batch's retry budget never aborts the run: when every
whole-batch call on the first batch fails ambiguously, the loop enters
per-identifier fallback for that batch and then continues with the
remaining batches, every remote error having been consumed rather than
propagated. -/
theorem c5_exhausted_retries_never_abort (oracle : Nat → Res) (delay : ℚ) (retries : Nat)
    (b : List String) (rest : List (List String)) (n : Nat) (invalid : Finset String)
    (hb : b ≠ [])
    (H : ∀ m, n ≤ m → m ≤ n + retries →
      ∃ msg, oracle m = .err msg ∧ extractInvalidUid msg = none) :
    ∃ tpre,
      runBatches oracle delay retries (b :: rest) n invalid
        = ((runBatches oracle delay retries rest
              (fallback oracle delay b (n + retries + 1) invalid).2.1
              (fallback oracle delay b (n + retries + 1) invalid).1).1,
           (runBatches oracle delay retries rest
              (fallback oracle delay b (n + retries + 1) invalid).2.1
              (fallback oracle delay b (n + retries + 1) invalid).1).2.1,
           tpre ++ (fallback oracle delay b (n + retries + 1) invalid).2.2
             ++ (runBatches oracle delay retries rest
                  (fallback oracle delay b (n + retries + 1) invalid).2.1
                  (fallback oracle delay b (n + retries + 1) invalid).1).2.2) ∧
      countBatchCalls tpre = retries + 1 ∧
      singleCallIds tpre = [] := by
  obtain ⟨tpre, heq, hcount, hsingle⟩ :=
    runBatch_allAmbiguous oracle delay retries b invalid retries 0 n (by omega) (by omega) H
  refine ⟨tpre, ?_, hcount, hsingle⟩
  simp only [runBatches, if_neg hb]
  rw [heq, List.append_assoc]

/-- Witness for C5 at a concrete always-failing oracle with a second batch. -/
theorem c5_exhausted_retries_never_abort_witness :
    ((["A"] : List String) ≠ []) ∧
    (∀ m, 0 ≤ m → m ≤ 0 + 0 →
      ∃ msg, (fun _ => Res.err "boom") m = Res.err msg ∧ extractInvalidUid msg = none) ∧
    (∃ tpre,
      runBatches (fun _ => Res.err "boom") 1 0 [["A"], ["B"]] 0 ∅
        = ((runBatches (fun _ => Res.err "boom") 1 0 [["B"]]
              (fallback (fun _ => Res.err "boom") 1 ["A"] (0 + 0 + 1) ∅).2.1
              (fallback (fun _ => Res.err "boom") 1 ["A"] (0 + 0 + 1) ∅).1).1,
           (runBatches (fun _ => Res.err "boom") 1 0 [["B"]]
              (fallback (fun _ => Res.err "boom") 1 ["A"] (0 + 0 + 1) ∅).2.1
              (fallback (fun _ => Res.err "boom") 1 ["A"] (0 + 0 + 1) ∅).1).2.1,
           tpre ++ (fallback (fun _ => Res.err "boom") 1 ["A"] (0 + 0 + 1) ∅).2.2
             ++ (runBatches (fun _ => Res.err "boom") 1 0 [["B"]]
                  (fallback (fun _ => Res.err "boom") 1 ["A"] (0 + 0 + 1) ∅).2.1
                  (fallback (fun _ => Res.err "boom") 1 ["A"] (0 + 0 + 1) ∅).1).2.2) ∧
      countBatchCalls tpre = 0 + 1 ∧
      singleCallIds tpre = []) :=
  ⟨by decide, fun _ _ _ => ⟨"boom", rfl, by decide⟩,
   c5_exhausted_retries_never_abort (fun _ => Res.err "boom") 1 0 ["A"] [["B"]] 0 ∅
     (by decide) (fun _ _ _ => ⟨"boom", rfl, by decide⟩)⟩

/-! ### Free-reduction retries -/

lemma freeReduce_some_iff {batch : List String} {msg bad : String} :
    freeReduce batch msg = some bad ↔
      extractInvalidUid msg = some bad ∧ bad ∈ batch := by
  unfold freeReduce
  cases he : extractInvalidUid msg with
  | none => simp
  | some b =>
    by_cases hb : b ∈ batch
    · simp only [if_pos hb, Option.some.injEq]
      exact ⟨fun h => ⟨h, h ▸ hb⟩, And.left⟩
    · simp only [if_neg hb]
      constructor
      · intro h
        cases h
      · rintro ⟨h1, h2⟩
        injection h1 with h1'
        subst h1'
        exact absurd h2 hb

lemma runBatch_freeOnly (oracle : Nat → Res) (delay : ℚ) (retries : Nat)
    (H2 : ∀ m m' msg msg' x x', oracle m = .err msg → oracle m' = .err msg' →
        extractInvalidUid msg = some x → extractInvalidUid msg' = some x' →
        m ≠ m' → x ≠ x') :
    ∀ (batch : List String) (attempt n : Nat) (invalid : Finset String) (T : Finset String),
      (∀ x ∈ T, x ∈ batch) →
      (∀ m, n ≤ m →
        oracle m = .ok ∨ ∃ x ∈ T, ∃ msg, oracle m = .err msg ∧ extractInvalidUid msg = some x) →
      countBatchCalls (runBatch oracle delay retries batch attempt n invalid).2.2 ≤ T.card + 1 ∧
      singleCallIds (runBatch oracle delay retries batch attempt n invalid).2.2 = [] := by
  intro batch attempt n invalid
  induction batch, attempt, n, invalid using runBatch.induct oracle delay retries with
  | case1 batch attempt n invalid ho =>
    intro T hT H1
    rw [runBatch_ok ho]
    refine ⟨?_, by simp [singleCallIds]⟩
    simp only [countBatchCalls]
    omega
  | case2 batch attempt n invalid msg ho bad hf hb =>
    intro T hT H1
    rw [runBatch_shrink_empty ho hf hb]
    refine ⟨?_, by simp [singleCallIds]⟩
    simp only [countBatchCalls]
    omega
  | case3 batch attempt n invalid msg ho bad hf hb ih =>
    intro T hT H1
    have hx : extractInvalidUid msg = some bad := (freeReduce_some_iff.mp hf).1
    have hbadT : bad ∈ T := by
      rcases H1 n le_rfl with h | ⟨x, hxT, msg', ho', hx'⟩
      · rw [ho] at h; cases h
      · rw [ho] at ho'
        injection ho' with hm
        subst hm
        rw [hx] at hx'
        injection hx' with h2
        subst h2
        exact hxT
    rw [runBatch_shrink ho hf hb]
    have hT' : ∀ x ∈ T.erase bad, x ∈ batch.filter (fun y => y ≠ bad) := by
      intro x hx'
      have hne := Finset.ne_of_mem_erase hx'
      have hxT := Finset.mem_of_mem_erase hx'
      exact List.mem_filter.mpr ⟨hT x hxT, by simp [hne]⟩
    have H1' : ∀ m, n + 1 ≤ m →
        oracle m = .ok ∨
          ∃ x ∈ T.erase bad, ∃ msg', oracle m = .err msg' ∧ extractInvalidUid msg' = some x := by
      intro m hm
      rcases H1 m (by omega) with h | ⟨x, hxT, msg', ho', hx'⟩
      · exact Or.inl h
      · refine Or.inr ⟨x, Finset.mem_erase.mpr ⟨?_, hxT⟩, msg', ho', hx'⟩
        exact H2 m n msg' msg x bad ho' ho hx' hx (by omega)
    obtain ⟨hc, hs⟩ := ih (T.erase bad) hT' H1'
    have hcard : (T.erase bad).card = T.card - 1 := Finset.card_erase_of_mem hbadT
    have hpos : 0 < T.card := Finset.card_pos.mpr ⟨bad, hbadT⟩
    refine ⟨?_, ?_⟩
    · simp only [countBatchCalls]
      omega
    · simp only [singleCallIds]
      exact hs
  | case4 batch attempt n invalid msg ho hf hgt =>
    intro T hT H1
    exfalso
    rcases H1 n le_rfl with h | ⟨x, hxT, msg', ho', hx'⟩
    · rw [ho] at h; cases h
    · rw [ho] at ho'
      injection ho' with hm
      subst hm
      have hsome : freeReduce batch msg = some x :=
        freeReduce_some_iff.mpr ⟨hx', hT x hxT⟩
      rw [hsome] at hf
      cases hf
  | case5 batch attempt n invalid msg ho hf hle ih =>
    intro T hT H1
    exfalso
    rcases H1 n le_rfl with h | ⟨x, hxT, msg', ho', hx'⟩
    · rw [ho] at h; cases h
    · rw [ho] at ho'
      injection ho' with hm
      subst hm
      have hsome : freeReduce batch msg = some x :=
        freeReduce_some_iff.mpr ⟨hx', hT x hxT⟩
      rw [hsome] at hf
      cases hf

/-- C2: free-reduction retries consume no retry budget. For a batch
containing the set `T` of identifiers (`k = T.card`) such that every remote
failure names, via an `Invalid uid X` message, a distinct member of `T`
(one per failure, in any order), the batch loop resolves the batch in at
most `k + 1` whole-batch remote calls and issues zero per-identifier
fallback calls — for every retry budget, including `retries = 0`, which
shows the single-identifier-removal retry never increments the attempt
counter. -/
theorem c2_free_reduction (oracle : Nat → Res) (delay : ℚ) (retries : Nat)
    (batch : List String) (n : Nat) (invalid : Finset String) (T : Finset String)
    (hT : ∀ x ∈ T, x ∈ batch)
    (H2 : ∀ m m' msg msg' x x', oracle m = .err msg → oracle m' = .err msg' →
        extractInvalidUid msg = some x → extractInvalidUid msg' = some x' →
        m ≠ m' → x ≠ x')
    (H1 : ∀ m, n ≤ m →
        oracle m = .ok ∨ ∃ x ∈ T, ∃ msg, oracle m = .err msg ∧ extractInvalidUid msg = some x) :
    countBatchCalls (runBatch oracle delay retries batch 0 n invalid).2.2 ≤ T.card + 1 ∧
    singleCallIds (runBatch oracle delay retries batch 0 n invalid).2.2 = [] :=
  runBatch_freeOnly oracle delay retries H2 batch 0 n invalid T hT H1

/-- Witness for C2: the first call fails naming `B`, the retried reduced
batch succeeds, all with a zero retry budget. -/
theorem c2_free_reduction_witness :
    (∀ x ∈ ({"B"} : Finset String), x ∈ ["A", "B"]) ∧
    (∀ m m' msg msg' x x',
        (fun k => if k = 0 then Res.err "Invalid uid B" else Res.ok) m = Res.err msg →
        (fun k => if k = 0 then Res.err "Invalid uid B" else Res.ok) m' = Res.err msg' →
        extractInvalidUid msg = some x → extractInvalidUid msg' = some x' → m ≠ m' → x ≠ x') ∧
    (∀ m, 0 ≤ m →
        (fun k => if k = 0 then Res.err "Invalid uid B" else Res.ok) m = Res.ok ∨
        ∃ x ∈ ({"B"} : Finset String), ∃ msg,
          (fun k => if k = 0 then Res.err "Invalid uid B" else Res.ok) m = Res.err msg ∧
          extractInvalidUid msg = some x) ∧
    (countBatchCalls (runBatch (fun k => if k = 0 then Res.err "Invalid uid B" else Res.ok)
        1 0 ["A", "B"] 0 0 ∅).2.2 ≤ ({"B"} : Finset String).card + 1 ∧
     singleCallIds (runBatch (fun k => if k = 0 then Res.err "Invalid uid B" else Res.ok)
        1 0 ["A", "B"] 0 0 ∅).2.2 = []) := by
  refine ⟨by decide, ?_, ?_, ?_⟩
  · intro m m' msg msg' x x' hm hm' hx hx' hne
    by_cases h0 : m = 0
    · by_cases h0' : m' = 0
      · exact absurd (h0.trans h0'.symm) hne
      · simp only [if_neg h0'] at hm'
        exact Res.noConfusion hm'
    · simp only [if_neg h0] at hm
      exact Res.noConfusion hm
  · intro m hm
    by_cases h0 : m = 0
    · subst h0
      exact Or.inr ⟨"B", by decide, "Invalid uid B", rfl, by decide⟩
    · exact Or.inl (by simp [h0])
  · exact c2_free_reduction (fun k => if k = 0 then Res.err "Invalid uid B" else Res.ok)
      1 0 ["A", "B"] 0 ∅ {"B"} (by decide)
      (fun m m' msg msg' x x' hm hm' hx hx' hne => by
        by_cases h0 : m = 0
        · by_cases h0' : m' = 0
          · exact absurd (h0.trans h0'.symm) hne
          · simp only [if_neg h0'] at hm'
            exact Res.noConfusion hm'
        · simp only [if_neg h0] at hm
          exact Res.noConfusion hm)
      (fun m hm => by
        by_cases h0 : m = 0
        · subst h0
          exact Or.inr ⟨"B", by decide, "Invalid uid B", rfl, by decide⟩
        · exact Or.inl (by simp [h0]))

/-! ### Stale single-identifier reports -/

lemma freeReduce_none_of_not_mem {batch : List String} {msg x : String}
    (hx : extractInvalidUid msg = some x) (hmem : x ∉ batch) :
    freeReduce batch msg = none := by
  unfold freeReduce
  rw [hx]
  show (if x ∈ batch then some x else none) = none
  exact if_neg hmem

/-- C6: a whole-batch failure whose message names an identifier `x` that is
not currently in the batch does not fire the single-identifier-removal
branch: the step taken is exactly the unclassified-failure step (attempt
incremented, batch unchanged, budgeted retry or fallback), and `x` is not
marked invalid by the batch's run. -/
theorem c6_stale_report_is_ambiguous (oracle : Nat → Res) (delay : ℚ) (retries : Nat)
    (batch : List String) (attempt n : Nat) (invalid : Finset String)
    (msg x : String)
    (ho : oracle n = .err msg) (hx : extractInvalidUid msg = some x)
    (hmem : x ∉ batch) :
    (runBatch oracle delay retries batch attempt n invalid
      = if retries < attempt + 1 then
          ((fallback oracle delay batch (n + 1) invalid).1,
           (fallback oracle delay batch (n + 1) invalid).2.1,
           .batchCall batch (.err msg) :: (fallback oracle delay batch (n + 1) invalid).2.2)
        else
          ((runBatch oracle delay retries batch (attempt + 1) (n + 1) invalid).1,
           (runBatch oracle delay retries batch (attempt + 1) (n + 1) invalid).2.1,
           .batchCall batch (.err msg) :: .sleep ((3 * (attempt + 1) : ℕ) : ℚ) ::
             (runBatch oracle delay retries batch (attempt + 1) (n + 1) invalid).2.2)) ∧
    (x ∉ invalid → x ∉ (runBatch oracle delay retries batch attempt n invalid).1) := by
  have hfr : freeReduce batch msg = none := freeReduce_none_of_not_mem hx hmem
  constructor
  · by_cases hgt : retries < attempt + 1
    · rw [if_pos hgt, runBatch_amb_fall ho hfr hgt]
    · rw [if_neg hgt, runBatch_amb_retry ho hfr hgt]
  · intro hinv hcontra
    have hsub := runBatch_invalid_subset oracle delay retries batch attempt n invalid hcontra
    rcases Finset.mem_union.mp hsub with h | h
    · exact hinv h
    · exact hmem (List.mem_toFinset.mp h)

/-- Witness for C6: the failure names `Z`, which is not in the batch
`["A"]`; the step is a budgeted retry. -/
theorem c6_stale_report_is_ambiguous_witness :
    ((fun k => if k = 0 then Res.err "Invalid uid Z" else Res.ok) 0 = Res.err "Invalid uid Z") ∧
    (extractInvalidUid "Invalid uid Z" = some "Z") ∧
    ("Z" ∉ (["A"] : List String)) ∧
    ((runBatch (fun k => if k = 0 then Res.err "Invalid uid Z" else Res.ok) 1 3 ["A"] 0 0 ∅
      = if 3 < 0 + 1 then
          ((fallback (fun k => if k = 0 then Res.err "Invalid uid Z" else Res.ok) 1 ["A"] (0 + 1) ∅).1,
           (fallback (fun k => if k = 0 then Res.err "Invalid uid Z" else Res.ok) 1 ["A"] (0 + 1) ∅).2.1,
           .batchCall ["A"] (.err "Invalid uid Z") ::
             (fallback (fun k => if k = 0 then Res.err "Invalid uid Z" else Res.ok) 1 ["A"] (0 + 1) ∅).2.2)
        else
          ((runBatch (fun k => if k = 0 then Res.err "Invalid uid Z" else Res.ok) 1 3 ["A"] (0 + 1) (0 + 1) ∅).1,
           (runBatch (fun k => if k = 0 then Res.err "Invalid uid Z" else Res.ok) 1 3 ["A"] (0 + 1) (0 + 1) ∅).2.1,
           .batchCall ["A"] (.err "Invalid uid Z") :: .sleep ((3 * (0 + 1) : ℕ) : ℚ) ::
             (runBatch (fun k => if k = 0 then Res.err "Invalid uid Z" else Res.ok) 1 3 ["A"] (0 + 1) (0 + 1) ∅).2.2)) ∧
     ("Z" ∉ (∅ : Finset String) →
       "Z" ∉ (runBatch (fun k => if k = 0 then Res.err "Invalid uid Z" else Res.ok) 1 3 ["A"] 0 0 ∅).1)) :=
  ⟨rfl, by decide, by decide,
   c6_stale_report_is_ambiguous (fun k => if k = 0 then Res.err "Invalid uid Z" else Res.ok)
     1 3 ["A"] 0 0 ∅ "Invalid uid Z" "Z" rfl (by decide) (by decide)⟩

/-! ### Rate limiting -/

lemma okCFD_cons (d : ℚ) (e : Event) (tr : List Event) :
    okCallFollowedByDelay d (e :: tr)
      = if isOkCall e then
          decide (tr.head? = some (.sleep d)) && okCallFollowedByDelay d tr
        else okCallFollowedByDelay d tr := by
  cases e with
  | batchCall b r => cases r <;> simp [okCallFollowedByDelay, isOkCall]
  | singleCall a r => cases r <;> simp [okCallFollowedByDelay, isOkCall]
  | sleep q => simp [okCallFollowedByDelay, isOkCall]

lemma lastNot_cons (e : Event) (tr : List Event) :
    lastNotOkCall (e :: tr)
      = if tr = [] then !isOkCall e else lastNotOkCall tr := by
  cases tr with
  | nil =>
    cases e with
    | batchCall b r => cases r <;> simp [lastNotOkCall, isOkCall]
    | singleCall a r => cases r <;> simp [lastNotOkCall, isOkCall]
    | sleep q => simp [lastNotOkCall, isOkCall]
  | cons x tr' =>
    simp [lastNotOkCall]

lemma okCFD_append (d : ℚ) :
    ∀ t1 t2 : List Event, okCallFollowedByDelay d t1 = true →
      okCallFollowedByDelay d t2 = true → lastNotOkCall t1 = true →
      okCallFollowedByDelay d (t1 ++ t2) = true := by
  intro t1
  induction t1 with
  | nil => intro t2 _ h2 _; simpa using h2
  | cons e tr ih =>
    intro t2 h1 h2 hl
    rw [okCFD_cons] at h1
    rw [List.cons_append, okCFD_cons]
    cases htr : tr with
    | nil =>
      subst htr
      rw [lastNot_cons, if_pos rfl] at hl
      have : isOkCall e = false := by
        cases hok : isOkCall e
        · rfl
        · rw [hok] at hl; simp at hl
      rw [this]
      simpa using h2
    | cons x tr' =>
      subst htr
      rw [lastNot_cons, if_neg (by simp)] at hl
      cases hok : isOkCall e with
      | false =>
        rw [hok, if_neg (by simp)] at h1
        rw [if_neg (by simp)]
        exact ih t2 h1 h2 hl
      | true =>
        rw [hok, if_pos rfl] at h1
        rw [if_pos rfl]
        obtain ⟨hh1, hh2⟩ := (Bool.and_eq_true _ _).mp h1
        refine (Bool.and_eq_true _ _).mpr ⟨?_, ih t2 hh2 h2 hl⟩
        simpa using hh1

lemma fallback_okCFD (oracle : Nat → Res) (d : ℚ) :
    ∀ (batch : List String) (n : Nat) (invalid : Finset String),
      okCallFollowedByDelay d (fallback oracle d batch n invalid).2.2 = true ∧
      lastNotOkCall (fallback oracle d batch n invalid).2.2 = true := by
  intro batch
  induction batch with
  | nil =>
    intro n invalid
    exact ⟨rfl, rfl⟩
  | cons a rest ih =>
    intro n invalid
    cases ho : oracle n with
    | ok =>
      obtain ⟨ih1, ih2⟩ := ih (n + 1) invalid
      constructor
      · simp only [fallback, ho]
        rw [okCFD_cons, if_pos (show isOkCall (Event.singleCall a Res.ok) = true from rfl)]
        refine (Bool.and_eq_true _ _).mpr ⟨by simp, ?_⟩
        rw [okCFD_cons, if_neg (by simp [isOkCall])]
        exact ih1
      · simp only [fallback, ho]
        rw [lastNot_cons, if_neg (by simp), lastNot_cons]
        by_cases htr : (fallback oracle d rest (n + 1) invalid).2.2 = []
        · rw [if_pos htr]
          rfl
        · rw [if_neg htr]
          exact ih2
    | err m =>
      obtain ⟨ih1, ih2⟩ := ih (n + 1) (insert a invalid)
      constructor
      · simp only [fallback, ho]
        rw [okCFD_cons, if_neg (by simp [isOkCall])]
        exact ih1
      · simp only [fallback, ho]
        rw [lastNot_cons]
        by_cases htr : (fallback oracle d rest (n + 1) (insert a invalid)).2.2 = []
        · rw [if_pos htr]
          rfl
        · rw [if_neg htr]
          exact ih2

lemma runBatch_okCFD (oracle : Nat → Res) (d : ℚ) (retries : Nat) :
    ∀ (batch : List String) (attempt n : Nat) (invalid : Finset String),
      okCallFollowedByDelay d (runBatch oracle d retries batch attempt n invalid).2.2 = true ∧
      lastNotOkCall (runBatch oracle d retries batch attempt n invalid).2.2 = true := by
  intro batch attempt n invalid
  induction batch, attempt, n, invalid using runBatch.induct oracle d retries with
  | case1 batch attempt n invalid ho =>
    rw [runBatch_ok ho]
    constructor
    · rw [okCFD_cons, if_pos (show isOkCall (Event.batchCall batch Res.ok) = true from rfl)]
      refine (Bool.and_eq_true _ _).mpr ⟨by simp, ?_⟩
      rw [okCFD_cons, if_neg (by simp [isOkCall])]
      rfl
    · rw [lastNot_cons, if_neg (by simp), lastNot_cons, if_pos rfl]
      rfl
  | case2 batch attempt n invalid msg ho bad hf hb =>
    rw [runBatch_shrink_empty ho hf hb]
    constructor
    · rw [okCFD_cons, if_neg (by simp [isOkCall])]
      rfl
    · rw [lastNot_cons, if_pos rfl]
      rfl
  | case3 batch attempt n invalid msg ho bad hf hb ih =>
    rw [runBatch_shrink ho hf hb]
    simp only []
    obtain ⟨ih1, ih2⟩ := ih
    constructor
    · rw [okCFD_cons, if_neg (by simp [isOkCall])]
      exact ih1
    · rw [lastNot_cons]
      by_cases htr :
          (runBatch oracle d retries (batch.filter (fun x => x ≠ bad)) attempt (n + 1)
            (insert bad invalid)).2.2 = []
      · rw [if_pos htr]
        rfl
      · rw [if_neg htr]
        exact ih2
  | case4 batch attempt n invalid msg ho hf hgt =>
    rw [runBatch_amb_fall ho hf hgt]
    simp only []
    obtain ⟨hf1, hf2⟩ := fallback_okCFD oracle d batch (n + 1) invalid
    constructor
    · rw [okCFD_cons, if_neg (by simp [isOkCall])]
      exact hf1
    · rw [lastNot_cons]
      by_cases htr : (fallback oracle d batch (n + 1) invalid).2.2 = []
      · rw [if_pos htr]
        rfl
      · rw [if_neg htr]
        exact hf2
  | case5 batch attempt n invalid msg ho hf hle ih =>
    rw [runBatch_amb_retry ho hf hle]
    simp only []
    obtain ⟨ih1, ih2⟩ := ih
    constructor
    · rw [okCFD_cons, if_neg (by simp [isOkCall])]
      rw [okCFD_cons, if_neg (by simp [isOkCall])]
      exact ih1
    · rw [lastNot_cons, if_neg (by simp), lastNot_cons]
      by_cases htr :
          (runBatch oracle d retries batch (attempt + 1) (n + 1) invalid).2.2 = []
      · rw [if_pos htr]
        rfl
      · rw [if_neg htr]
        exact ih2

lemma runBatches_okCFD (oracle : Nat → Res) (d : ℚ) (retries : Nat) :
    ∀ (bs : List (List String)) (n : Nat) (invalid : Finset String),
      okCallFollowedByDelay d (runBatches oracle d retries bs n invalid).2.2 = true := by
  intro bs
  induction bs with
  | nil => intro n invalid; rfl
  | cons b rest ih =>
    intro n invalid
    by_cases hb : b = []
    · subst hb
      simp only [runBatches, if_pos]
      exact ih n invalid
    · simp only [runBatches, if_neg hb]
      exact okCFD_append d _ _
        (runBatch_okCFD oracle d retries b 0 n invalid).1
        (ih _ _)
        (runBatch_okCFD oracle d retries b 0 n invalid).2

/-- C7, counterexample: the claim that every remote call — successful or
failed — is followed by a sleep of the configured delay is false: with
`delay = 1`, `retries = 0` and an oracle that always raises, the run's
trace is a failed batch call immediately followed by a failed
per-identifier call, with no sleep anywhere. -/
theorem c7_counterexample :
    callFollowedByDelay 1
      ((validate_ids_with_entrez (fun _ => Res.err "boom") ["A"] 1 0 1).2) = false := by
  have hchunk : chunker ["A"] 1 = [["A"]] := by
    rw [chunker.eq_def]
    norm_num
    rw [chunker.eq_def]
    norm_num
  have hfr : freeReduce ["A"] "boom" = none := by decide
  have hfb : fallback (fun _ => Res.err "boom") 1 ["A"] (0 + 1) ∅
      = ({"A"}, 2, [.singleCall "A" (.err "boom")]) := by decide
  have hr : runBatch (fun _ => Res.err "boom") 1 0 ["A"] 0 0 ∅
      = ({"A"}, 2, [.batchCall ["A"] (.err "boom"), .singleCall "A" (.err "boom")]) := by
    rw [runBatch_amb_fall rfl hfr (by decide) 1 ∅]
    rw [hfb]
  simp only [validate_ids_with_entrez, hchunk, runBatches, hr]
  norm_num
  decide

/-- C7, amended: a sleep of the configured delay follows every successful
remote call (whole-batch or per-identifier); failed calls are not followed
by the configured delay — a budgeted retry sleeps `3 * attempt` seconds
instead, and free-reduction retries, the failure that triggers fallback,
and failed per-identifier calls sleep not at all. -/
theorem c7_amended_delay_after_successful_calls (oracle : Nat → Res) (ids : List String)
    (delay : ℚ) (retries batch_size : Nat) (hbs : 0 < batch_size) :
    okCallFollowedByDelay delay
      (validate_ids_with_entrez oracle ids delay retries batch_size).2 = true := by
  simp only [validate_ids_with_entrez]
  exact runBatches_okCFD oracle delay retries _ 0 ∅

/-- Witness for the amended C7. -/
theorem c7_amended_witness :
    0 < 1 ∧
    okCallFollowedByDelay 1
      (validate_ids_with_entrez (fun _ => Res.ok) ["A"] 1 3 1).2 = true :=
  ⟨Nat.one_pos, c7_amended_delay_after_successful_calls (fun _ => Res.ok) ["A"] 1 3 1 Nat.one_pos⟩

/-! ### The rewriter and the scanner -/

lemma writeLoop_skip_body (bad : Finset String) :
    ∀ (body rest : List String), (∀ l ∈ body, startsWithGt l = false) →
      writeLoop bad (body ++ rest) false = writeLoop bad rest false := by
  intro body
  induction body with
  | nil => intro rest _; rfl
  | cons l body' ih =>
    intro rest hh
    have hl : startsWithGt l = false := hh l (List.mem_cons_self _ _)
    rw [List.cons_append]
    simp only [writeLoop]
    rw [if_neg (by simp [hl]), if_neg (by simp)]
    exact ih rest (fun x hx => hh x (List.mem_cons_of_mem _ hx))

lemma writeLoop_keep_body (bad : Finset String) :
    ∀ (body rest : List String), (∀ l ∈ body, startsWithGt l = false) →
      writeLoop bad (body ++ rest) true
        = (writeLoop bad rest true).map (fun out => body ++ out) := by
  intro body
  induction body with
  | nil =>
    intro rest _
    rw [List.nil_append]
    cases h : writeLoop bad rest true <;> simp [h]
  | cons l body' ih =>
    intro rest hh
    have hl : startsWithGt l = false := hh l (List.mem_cons_self _ _)
    rw [List.cons_append]
    simp only [writeLoop]
    rw [if_neg (by simp [hl]), if_pos (by trivial)]
    rw [ih rest (fun x hx => hh x (List.mem_cons_of_mem _ hx))]
    cases writeLoop bad rest true <;> simp

lemma writeLoop_record (bad : Finset String) (h : String) (body : List String) (a : String)
    (hh : startsWithGt h = true) (ha : extract_accession_from_header h = some a)
    (hb : ∀ l ∈ body, startsWithGt l = false) :
    ∀ (rest : List String) (wc : Bool),
      writeLoop bad ((h :: body) ++ rest) wc
        = if a ∈ bad then writeLoop bad rest false
          else (writeLoop bad rest true).map (fun out => (h :: body) ++ out) := by
  intro rest wc
  rw [List.cons_append]
  simp only [writeLoop]
  rw [if_pos hh]
  simp only [ha]
  by_cases hmem : a ∈ bad
  · rw [if_pos hmem, if_pos hmem]
    rw [writeLoop_skip_body bad body rest hb]
  · rw [if_neg hmem, if_neg hmem]
    rw [writeLoop_keep_body bad body rest hb]
    cases writeLoop bad rest true <;> simp

lemma writeLoop_records (S : Finset String) :
    ∀ (recs : List (String × List String)),
      (∀ r ∈ recs, startsWithGt r.1 = true ∧
          (∃ a, extract_accession_from_header r.1 = some a) ∧
          ∀ l ∈ r.2, startsWithGt l = false) →
      ∀ wc : Bool, writeLoop S ((recs.map (fun r => r.1 :: r.2)).flatten) wc
        = some (((recs.filter (fun r =>
              decide ((extract_accession_from_header r.1).getD "" ∉ S))).map
            (fun r => r.1 :: r.2)).flatten) := by
  intro recs
  induction recs with
  | nil => intro _ wc; rfl
  | cons r recs' ih =>
    intro hrec wc
    obtain ⟨hh, ⟨a, ha⟩, hb⟩ := hrec r (List.mem_cons_self _ _)
    have hrec' := fun x hx => hrec x (List.mem_cons_of_mem _ hx)
    rw [List.map_cons, List.flatten_cons]
    rw [writeLoop_record S r.1 r.2 a hh ha hb _ wc]
    rw [List.filter_cons]
    by_cases hmem : a ∈ S
    · rw [if_pos hmem]
      rw [if_neg (by simp [ha, hmem])]
      exact ih hrec' false
    · rw [if_neg hmem]
      rw [if_pos (by simp [ha, hmem])]
      rw [ih hrec' true]
      rw [List.map_cons, List.flatten_cons]
      simp

/-- C8: rewriter fidelity. For an input stream made of records (a header
line followed by its non-header body lines, each header yielding an
accession) and any rejected set `S`, the rewriter outputs exactly the
records whose extracted identifier is not in `S`, in their original order,
each kept header and body line copied verbatim, every body line inheriting
the most recent header's keep/drop decision. -/
theorem c8_rewriter_fidelity (recs : List (String × List String)) (S : Finset String)
    (hrec : ∀ r ∈ recs, startsWithGt r.1 = true ∧
        (∃ a, extract_accession_from_header r.1 = some a) ∧
        ∀ l ∈ r.2, startsWithGt l = false) :
    write_cleaned_fasta ((recs.map (fun r => r.1 :: r.2)).flatten) S
      = some (((recs.filter (fun r =>
            decide ((extract_accession_from_header r.1).getD "" ∉ S))).map
          (fun r => r.1 :: r.2)).flatten) :=
  writeLoop_records S recs hrec true

/-- Witness for C8: two records, the first rejected. -/
theorem c8_rewriter_fidelity_witness :
    (∀ r ∈ ([(">NP_1 x\n", ["AAA\n", "GGG\n"]), (">XP_2\n", ["CCC\n"])] :
        List (String × List String)),
      startsWithGt r.1 = true ∧
      (∃ a, extract_accession_from_header r.1 = some a) ∧
      ∀ l ∈ r.2, startsWithGt l = false) ∧
    write_cleaned_fasta
        ((([(">NP_1 x\n", ["AAA\n", "GGG\n"]), (">XP_2\n", ["CCC\n"])] :
          List (String × List String)).map (fun r => r.1 :: r.2)).flatten) {"NP_1"}
      = some (((([(">NP_1 x\n", ["AAA\n", "GGG\n"]), (">XP_2\n", ["CCC\n"])] :
          List (String × List String)).filter (fun r =>
            decide ((extract_accession_from_header r.1).getD "" ∉ ({"NP_1"} : Finset String)))).map
          (fun r => r.1 :: r.2)).flatten) :=
  ⟨by
    intro r hr
    fin_cases hr
    · exact ⟨by decide, ⟨"NP_1", by decide⟩, by decide⟩
    · exact ⟨by decide, ⟨"XP_2", by decide⟩, by decide⟩,
   c8_rewriter_fidelity [(">NP_1 x\n", ["AAA\n", "GGG\n"]), (">XP_2\n", ["CCC\n"])]
     {"NP_1"} (by
      intro r hr
      fin_cases hr
      · exact ⟨by decide, ⟨"NP_1", by decide⟩, by decide⟩
      · exact ⟨by decide, ⟨"XP_2", by decide⟩, by decide⟩)⟩

/-- C9: header extraction is partial. On the header line consisting of the
bare marker (e.g. the line `>\n`) the regex finds no token and
`line[1:].strip().split()` is empty, so `[0]` raises `IndexError` (modelled
as `none`); header scanning and rewriting crash on such input. -/
theorem c9_header_extraction_partial :
    extract_accession_from_header ">\n" = none ∧
    collect_accessions_from_fasta [">\n"] = none ∧
    write_cleaned_fasta [">\n"] ∅ = none := by
  refine ⟨by decide, by decide, by decide⟩

/-- C10: non-header lines before the first header are always copied to the
output, because `write_current` is initialised to keep. -/
theorem c10_leading_body_lines_kept (pre rest : List String) (bad : Finset String)
    (hpre : ∀ l ∈ pre, startsWithGt l = false) :
    write_cleaned_fasta (pre ++ rest) bad
      = (write_cleaned_fasta rest bad).map (fun out => pre ++ out) :=
  writeLoop_keep_body bad pre rest hpre

/-- Witness for C10: two leading body lines before a rejected record. -/
theorem c10_leading_body_lines_kept_witness :
    (∀ l ∈ (["hello\n", "world\n"] : List String), startsWithGt l = false) ∧
    write_cleaned_fasta (["hello\n", "world\n"] ++ [">NP_9\n", "TTT\n"]) {"NP_9"}
      = (write_cleaned_fasta [">NP_9\n", "TTT\n"] {"NP_9"}).map
          (fun out => ["hello\n", "world\n"] ++ out) :=
  ⟨by decide,
   c10_leading_body_lines_kept ["hello\n", "world\n"] [">NP_9\n", "TTT\n"] {"NP_9"} (by decide)⟩

end ShareOme
